import Mathlib

/-!
Verification of the manifest updater (`src/updater/main.py`) of
betaboon/bitnami-postgresql-wal2json.

The updater tracks the latest upstream bitnami/postgresql tags (one per
requested major version) together with a fixed wal2json extension version,
and reconciles a freshly generated candidate manifest against the
previously persisted one.

Embedding notes:
* `datetime` values and upstream `last_updated` fields are ISO-8601 strings
  in the persisted JSON; we model them as `String` (the source compares the
  raw JSON strings when sorting tags).
* Python string comparison (`<`, used by `sorted`) is code-point
  lexicographic; we model it by the lexicographic order on `List Char`
  (`py_str_lt`), which agrees with Lean's `String` order.
* Python's builtin `sorted` is a stable ascending sort; we model it by a
  stable insertion sort (`py_sorted`), extensionally equal to any stable
  sort with the same comparison.
* The single HTTP fetch (`requests.get(POSTGRESQL_URL)`) is an external
  collaborator; its decoded `results` array is lifted to an explicit
  parameter of type `List UpstreamTag`.
* Fallible code paths (an unmatched regex in `parse_tag`, the `[-1]` index
  on an empty filtered tag list in `get_postgresql_records`) are modelled
  with `Except UpdaterError`, the error constructors naming what failed.
-/

/-- `Wal2JsonRecord` dataclass of `main.py` (lines 25-29). -/
structure Wal2JsonRecord where
  last_updated : String
  version : String
  upstream_tag : String
deriving DecidableEq

/-- `PostgresqlRecord` dataclass of `main.py` (lines 32-38). -/
structure PostgresqlRecord where
  last_updated : String
  version : String
  major_version : String
  upstream_tag : String
  tags : List String
deriving DecidableEq

/-- `Manifest` dataclass of `main.py` (lines 71-74). -/
structure Manifest where
  wal2json : Wal2JsonRecord
  postgresql : List PostgresqlRecord
deriving DecidableEq

/-- One element of the `results` array returned by the tag-listing
endpoint; the source consumes only `name` and `last_updated`. -/
structure UpstreamTag where
  name : String
  last_updated : String
deriving DecidableEq

/-- The fatal failure modes of a run.  `MalformedTagError` models the
exception escaping `PostgresqlRecord.parse_tag` when the tag regex does not
match (line 42-43); `UpstreamVersionNotFoundError` models the exception
escaping `get_postgresql_records` when no upstream tag matches a requested
major version (the `[-1]` index on an empty list, line 96). -/
inductive UpdaterError where
  | MalformedTagError (tag : String)
  | UpstreamVersionNotFoundError (major_version : String)
deriving DecidableEq

/-- Python string `<` (code-point lexicographic), modelled as the
lexicographic order on the character lists. -/
def py_str_lt (a b : String) : Bool :=
  decide (a.toList < b.toList)

/-- Python `str.startswith`, modelled on the character lists. -/
def py_startswith (s pre : String) : Bool :=
  List.isPrefixOf pre.toList s.toList

/-- Insert `a` into a list sorted ascending by `key`, before the first
element whose key is not smaller; together with `py_sorted` this models
Python's stable `sorted(..., key=...)`. -/
def py_insort (key : α → String) (a : α) : List α → List α
  | [] => [a]
  | b :: bs => if py_str_lt (key b) (key a) then b :: py_insort key a bs else a :: b :: bs

/-- Python's builtin `sorted(l, key=key)`: stable ascending sort by `key`
under code-point-lexicographic string comparison. -/
def py_sorted (key : α → String) : List α → List α
  | [] => []
  | x :: xs => py_insort key x (py_sorted key xs)

/-- `sorted(postgresql_major_versions)` (line 135): Python `sorted` on a
list of strings, i.e. `py_sorted` with the identity key. -/
def sorted_strings (l : List String) : List String :=
  py_sorted (fun s => s) l

/-- Character-level core of `PostgresqlRecord.parse_tag`: simulates
`re.match` of `POSTGRESQL_TAG_REGEX` (line 20-22), i.e.
`(?P<postgresql_version>[^-]+)-debian-(?P<debian_version>[^-]+)-.*`
anchored at the start of the string.  Returns the two named groups.
The trailing `.*` always matches (a prefix match suffices for `re.match`),
so success only requires the shape up to and including the hyphen after
`debian_version`. -/
def parse_tag_chars (cs : List Char) : Option (List Char × List Char) :=
  let v := cs.takeWhile (fun c => c ≠ '-')
  let r1 := cs.dropWhile (fun c => c ≠ '-')
  if v = [] then none
  else if r1.take 8 = "-debian-".toList then
    let r2 := r1.drop 8
    let d := r2.takeWhile (fun c => c ≠ '-')
    let r3 := r2.dropWhile (fun c => c ≠ '-')
    if d = [] then none
    else if r3.head? = some '-' then some (v, d)
    else none
  else none

/-- `PostgresqlRecord.parse_tag` (lines 40-44): match the tag against
`POSTGRESQL_TAG_REGEX` and return `(postgresql_version, debian_version)`;
a failed match raises (modelled as `MalformedTagError`). -/
def PostgresqlRecord.parse_tag (tag : String) : Except UpdaterError (String × String) :=
  match parse_tag_chars tag.toList with
  | some (v, d) => .ok (⟨v⟩, ⟨d⟩)
  | none => .error (.MalformedTagError tag)

/-- `PostgresqlRecord.from_version` (lines 46-68): parse the upstream tag
and build the record with its alias tag list in the fixed order, appending
`<image>:latest` exactly when `latest` is set. -/
def PostgresqlRecord.from_version (update_time image_name major_version upstream_tag : String)
    (latest : Bool) : Except UpdaterError PostgresqlRecord :=
  match PostgresqlRecord.parse_tag upstream_tag with
  | .error e => .error e
  | .ok (postgresql_version, debian_version) =>
    .ok { last_updated := update_time
        , version := postgresql_version
        , major_version := major_version
        , upstream_tag := upstream_tag
        , tags := [ image_name ++ ":" ++ upstream_tag
                  , image_name ++ ":" ++ major_version ++ "-debian-" ++ debian_version
                  , image_name ++ ":" ++ postgresql_version
                  , image_name ++ ":" ++ major_version ]
                  ++ (if latest then [image_name ++ ":latest"] else []) }

/-- `get_wal2json_record` (lines 77-82): a constant record, independent of
any fetched upstream data. -/
def get_wal2json_record (update_time : String) : Wal2JsonRecord :=
  { last_updated := update_time, version := "2.5", upstream_tag := "wal2json_2_5" }

/-- The tag-selection step of `get_postgresql_records` (lines 94-96):
filter the fetched tags to those whose name starts with `"<major>."`, sort
ascending by the raw `last_updated` string, and take the last element
(`[-1]`); `none` models the `IndexError` on an empty filtered list. -/
def select_version_tag (results : List UpstreamTag) (major_version : String) :
    Option UpstreamTag :=
  let version_tags := results.filter (fun t => py_startswith t.name (major_version ++ "."))
  let version_tags_sorted := py_sorted (fun t => t.last_updated) version_tags
  version_tags_sorted.getLast?

/-- `get_postgresql_records` (lines 85-106) with the decoded `results`
array of the HTTP response as a parameter: for each requested major version
in order, select the upstream tag and build the record; `latest` is set
exactly on the final element (`i + 1 == len(...)`). -/
def get_postgresql_records (update_time image_name : String) (results : List UpstreamTag) :
    List String → Except UpdaterError (List PostgresqlRecord)
  | [] => .ok []
  | major_version :: rest =>
    match select_version_tag results major_version with
    | none => .error (.UpstreamVersionNotFoundError major_version)
    | some version_tag_latest =>
      match PostgresqlRecord.from_version update_time image_name major_version
          version_tag_latest.name rest.isEmpty with
      | .error e => .error e
      | .ok record =>
        match get_postgresql_records update_time image_name results rest with
        | .error e => .error e
        | .ok records => .ok (record :: records)

/-- `generate_manifest` (lines 109-126) with the fetched tags as a
parameter. -/
def generate_manifest (update_time image_name : String) (results : List UpstreamTag)
    (postgresql_major_versions : List String) : Except UpdaterError Manifest :=
  match get_postgresql_records update_time image_name results postgresql_major_versions with
  | .error e => .error e
  | .ok postgresql_records =>
    .ok { wal2json := get_wal2json_record update_time, postgresql := postgresql_records }

/-- The dict built by `{r.major_version: r for r in records}` followed by
`.get(m)` (lines 149-155): a later record with the same `major_version`
overrides an earlier one, so the lookup returns the last matching record. -/
def records_get (records : List PostgresqlRecord) (m : String) : Option PostgresqlRecord :=
  match records with
  | [] => none
  | r :: rest =>
    match records_get rest m with
    | some x => some x
    | none => if r.major_version = m then some r else none

/-- The reconciliation loop of `update_manifest` (lines 152-168): per
requested major version, keep the candidate record when the previous one is
absent or its `upstream_tag` changed, keep the previous record when present
otherwise, and emit nothing when neither side has a record. -/
def merge_postgresql_records (old_records new_records : List PostgresqlRecord) :
    List String → List PostgresqlRecord
  | [] => []
  | m :: rest =>
    let old_record := records_get old_records m
    let new_record := records_get new_records m
    match old_record, new_record with
    | none, some nr => nr :: merge_postgresql_records old_records new_records rest
    | some orec, some nr =>
      if nr.upstream_tag ≠ orec.upstream_tag
      then nr :: merge_postgresql_records old_records new_records rest
      else orec :: merge_postgresql_records old_records new_records rest
    | some orec, none => orec :: merge_postgresql_records old_records new_records rest
    | none, none => merge_postgresql_records old_records new_records rest

/-- The merge step of `update_manifest` for a present previous manifest
(lines 146-172): replace the wal2json record when its `upstream_tag`
changed, keep it otherwise, and reconcile the postgresql records over the
given (already sorted) major-version list. -/
def merge_manifest (manifest new_manifest : Manifest)
    (postgresql_major_versions : List String) : Manifest :=
  { wal2json :=
      if manifest.wal2json.upstream_tag ≠ new_manifest.wal2json.upstream_tag
      then new_manifest.wal2json else manifest.wal2json
  , postgresql :=
      merge_postgresql_records manifest.postgresql new_manifest.postgresql
        postgresql_major_versions }

/-- `update_manifest` (lines 129-172) with the fetched tags as a parameter:
sort the requested major versions, generate the candidate manifest, return
it unchanged on a first run (`manifest is None`), and merge otherwise. -/
def update_manifest (manifest : Option Manifest) (update_time image_name : String)
    (results : List UpstreamTag) (postgresql_major_versions : List String) :
    Except UpdaterError Manifest :=
  let sorted_majors := sorted_strings postgresql_major_versions
  match generate_manifest update_time image_name results sorted_majors with
  | .error e => .error e
  | .ok new_manifest =>
    match manifest with
    | none => .ok new_manifest
    | some m => .ok (merge_manifest m new_manifest sorted_majors)

/-- Per-major outcome of the reconciliation loop, used to characterise
`merge_postgresql_records` entry-wise. -/
def reconcile_entry (old_records new_records : List PostgresqlRecord) (m : String) :
    Option PostgresqlRecord :=
  match records_get old_records m, records_get new_records m with
  | none, some nr => some nr
  | some orec, some nr => some (if nr.upstream_tag ≠ orec.upstream_tag then nr else orec)
  | some orec, none => some orec
  | none, none => none

/-- The tag shape `<version>-debian-<debian_version>-<suffix>` as worded in
the specification, the components delimited by literal hyphens: `version`
and `debian_version` are nonempty and hyphen-free, the suffix arbitrary. -/
def spec_tag_shape (tag : String) : Prop :=
  ∃ v d s : List Char,
    v ≠ [] ∧ d ≠ [] ∧ (∀ c ∈ v, c ≠ '-') ∧ (∀ c ∈ d, c ≠ '-') ∧
    tag.toList = v ++ "-debian-".toList ++ d ++ '-' :: s

theorem records_get_major {rs : List PostgresqlRecord} {m : String} {r : PostgresqlRecord}
    (h : records_get rs m = some r) : r.major_version = m := by
  induction rs with
  | nil => simp [records_get] at h
  | cons a rest ih =>
    simp only [records_get] at h
    cases hr : records_get rest m with
    | some x =>
      rw [hr] at h
      injection h with h
      subst h
      exact ih hr
    | none =>
      rw [hr] at h
      by_cases hm : a.major_version = m
      · rw [if_pos hm] at h
        injection h with h
        subst h
        exact hm
      · rw [if_neg hm] at h
        cases h

theorem records_get_mem {rs : List PostgresqlRecord} {m : String} {r : PostgresqlRecord}
    (h : records_get rs m = some r) : r ∈ rs := by
  induction rs with
  | nil => simp [records_get] at h
  | cons a rest ih =>
    simp only [records_get] at h
    cases hr : records_get rest m with
    | some x =>
      rw [hr] at h
      injection h with h
      subst h
      exact List.mem_cons_of_mem a (ih hr)
    | none =>
      rw [hr] at h
      by_cases hm : a.major_version = m
      · rw [if_pos hm] at h
        injection h with h
        subst h
        exact List.mem_cons_self a rest
      · rw [if_neg hm] at h
        cases h

theorem records_get_eq_none_of {rs : List PostgresqlRecord} {m : String}
    (h : ∀ r ∈ rs, r.major_version ≠ m) : records_get rs m = none := by
  induction rs with
  | nil => rfl
  | cons a rest ih =>
    simp only [records_get]
    rw [ih fun r hr => h r (List.mem_cons_of_mem a hr)]
    rw [if_neg (h a (List.mem_cons_self a rest))]

theorem forall_ne_of_records_get_eq_none {rs : List PostgresqlRecord} {m : String}
    (h : records_get rs m = none) : ∀ r ∈ rs, r.major_version ≠ m := by
  induction rs with
  | nil => intro r hr; cases hr
  | cons a rest ih =>
    simp only [records_get] at h
    cases hr : records_get rest m with
    | some x => rw [hr] at h; cases h
    | none =>
      rw [hr] at h
      intro r hmem
      rcases List.mem_cons.mp hmem with hra | hrr
      · subst hra
        intro hm
        rw [if_pos hm] at h
        cases h
      · exact ih hr r hrr

theorem records_get_isSome_of {rs : List PostgresqlRecord} {m : String} {r : PostgresqlRecord}
    (hmem : r ∈ rs) (hm : r.major_version = m) : (records_get rs m).isSome := by
  cases hg : records_get rs m with
  | some x => rfl
  | none => exact absurd hm (forall_ne_of_records_get_eq_none hg r hmem)

theorem merge_eq_filterMap (old_records new_records : List PostgresqlRecord)
    (ms : List String) :
    merge_postgresql_records old_records new_records ms
      = ms.filterMap (reconcile_entry old_records new_records) := by
  induction ms with
  | nil => rfl
  | cons m rest ih =>
    simp only [merge_postgresql_records, reconcile_entry, List.filterMap_cons]
    cases records_get old_records m <;> cases records_get new_records m <;>
      simp only [ih] <;> try rfl
    split <;> rfl

theorem reconcile_entry_major {old_records new_records : List PostgresqlRecord}
    {m : String} {r : PostgresqlRecord}
    (h : reconcile_entry old_records new_records m = some r) : r.major_version = m := by
  simp only [reconcile_entry] at h
  cases ho : records_get old_records m <;> cases hn : records_get new_records m <;>
      rw [ho, hn] at h
  · cases h
  · injection h with h
    subst h
    exact records_get_major hn
  · injection h with h
    subst h
    exact records_get_major ho
  · injection h with h
    subst h
    split
    · exact records_get_major hn
    · exact records_get_major ho

theorem reconcile_entry_mem {old_records new_records : List PostgresqlRecord}
    {m : String} {r : PostgresqlRecord}
    (h : reconcile_entry old_records new_records m = some r) :
    r ∈ old_records ∨ r ∈ new_records := by
  simp only [reconcile_entry] at h
  cases ho : records_get old_records m <;> cases hn : records_get new_records m <;>
      rw [ho, hn] at h
  · cases h
  · injection h with h
    subst h
    exact Or.inr (records_get_mem hn)
  · injection h with h
    subst h
    exact Or.inl (records_get_mem ho)
  · injection h with h
    subst h
    split
    · exact Or.inr (records_get_mem hn)
    · exact Or.inl (records_get_mem ho)

theorem reconcile_entry_isSome (old_records new_records : List PostgresqlRecord) (m : String) :
    (reconcile_entry old_records new_records m).isSome
      = ((records_get old_records m).isSome || (records_get new_records m).isSome) := by
  simp only [reconcile_entry]
  cases records_get old_records m <;> cases records_get new_records m <;> rfl

theorem py_str_lt_iff {a b : String} : py_str_lt a b = true ↔ a < b := by
  rw [py_str_lt, decide_eq_true_eq, String.lt_iff_toList_lt]

theorem py_str_lt_eq_false_iff {a b : String} : py_str_lt a b = false ↔ b ≤ a := by
  rw [← Bool.not_eq_true, py_str_lt_iff, not_lt]

theorem py_insort_perm (key : α → String) (a : α) (l : List α) :
    List.Perm (py_insort key a l) (a :: l) := by
  induction l with
  | nil => exact List.Perm.refl _
  | cons b bs ih =>
    simp only [py_insort]
    split
    · exact (ih.cons b).trans (List.Perm.swap a b bs)
    · exact List.Perm.refl _

theorem py_sorted_perm (key : α → String) (l : List α) :
    List.Perm (py_sorted key l) l := by
  induction l with
  | nil => exact List.Perm.refl _
  | cons x xs ih =>
    exact (py_insort_perm key x (py_sorted key xs)).trans (ih.cons x)

theorem py_insort_pairwise {key : α → String} {a : α} {l : List α}
    (h : List.Pairwise (fun x y => key x ≤ key y) l) :
    List.Pairwise (fun x y => key x ≤ key y) (py_insort key a l) := by
  induction l with
  | nil => simp [py_insort]
  | cons b bs ih =>
    simp only [py_insort]
    rcases List.pairwise_cons.mp h with ⟨hb, hbs⟩
    by_cases hlt : py_str_lt (key b) (key a) = true
    · rw [if_pos hlt]
      refine List.pairwise_cons.mpr ⟨?_, ih hbs⟩
      intro c hc
      have hc2 : c ∈ a :: bs := (py_insort_perm key a bs).mem_iff.mp hc
      rcases List.mem_cons.mp hc2 with rfl | hcbs
      · exact le_of_lt (py_str_lt_iff.mp hlt)
      · exact hb c hcbs
    · rw [if_neg hlt]
      have hba : key a ≤ key b :=
        py_str_lt_eq_false_iff.mp (Bool.eq_false_iff.mpr fun hx => hlt hx)
      refine List.pairwise_cons.mpr ⟨?_, h⟩
      intro c hc
      rcases List.mem_cons.mp hc with rfl | hcbs
      · exact hba
      · exact le_trans hba (hb c hcbs)

theorem py_sorted_pairwise (key : α → String) (l : List α) :
    List.Pairwise (fun x y => key x ≤ key y) (py_sorted key l) := by
  induction l with
  | nil => exact List.Pairwise.nil
  | cons x xs ih => exact py_insort_pairwise ih

theorem mem_of_getLast_some {l : List α} {y : α} (h : l.getLast? = some y) : y ∈ l := by
  induction l with
  | nil => cases h
  | cons a rest ih =>
    cases rest with
    | nil =>
      simp only [List.getLast?_singleton, Option.some.injEq] at h
      subst h
      exact List.mem_cons_self a []
    | cons b bs =>
      rw [List.getLast?_cons_cons] at h
      exact List.mem_cons_of_mem a (ih h)

theorem pairwise_rel_getLast {R : α → α → Prop} {l : List α} {x y : α}
    (hp : List.Pairwise R l) (hx : x ∈ l) (hl : l.getLast? = some y) : x = y ∨ R x y := by
  induction l with
  | nil => cases hx
  | cons a rest ih =>
    cases rest with
    | nil =>
      simp only [List.getLast?_singleton, Option.some.injEq] at hl
      subst hl
      rcases List.mem_cons.mp hx with rfl | hx0
      · exact Or.inl rfl
      · cases hx0
    | cons b bs =>
      rw [List.getLast?_cons_cons] at hl
      rcases List.mem_cons.mp hx with rfl | hxr
      · right
        rcases List.pairwise_cons.mp hp with ⟨ha, _⟩
        exact ha y (mem_of_getLast_some hl)
      · exact ih (List.pairwise_cons.mp hp).2 hxr hl

theorem select_version_tag_unique_max {results : List UpstreamTag} {major : String}
    {t : UpstreamTag} (ht : t ∈ results)
    (hpre : py_startswith t.name (major ++ ".") = true)
    (hmax : ∀ u ∈ results, py_startswith u.name (major ++ ".") = true → u ≠ t →
      u.last_updated < t.last_updated) :
    select_version_tag results major = some t := by
  unfold select_version_tag
  have htf : t ∈ results.filter (fun u => py_startswith u.name (major ++ ".")) :=
    List.mem_filter.mpr ⟨ht, hpre⟩
  have hts : t ∈ py_sorted (fun u => u.last_updated)
      (results.filter (fun u => py_startswith u.name (major ++ "."))) :=
    (py_sorted_perm _ _).mem_iff.mpr htf
  cases hg : (py_sorted (fun u => u.last_updated)
      (results.filter (fun u => py_startswith u.name (major ++ ".")))).getLast? with
  | none =>
    rw [List.getLast?_eq_none_iff] at hg
    rw [hg] at hts
    cases hts
  | some y =>
    rcases pairwise_rel_getLast (py_sorted_pairwise _ _) hts hg with rfl | hle
    · rfl
    · by_cases hyt : y = t
      · rw [hyt]
      · exfalso
        have hyf : y ∈ results.filter (fun u => py_startswith u.name (major ++ ".")) :=
          (py_sorted_perm _ _).mem_iff.mp (mem_of_getLast_some hg)
        rcases List.mem_filter.mp hyf with ⟨hyres, hypre⟩
        exact absurd hle (not_le.mpr (hmax y hyres hypre hyt))

theorem records_get_merge_not_mem {old_records new_records : List PostgresqlRecord}
    {ms : List String} {m : String} (h : m ∉ ms) :
    records_get (merge_postgresql_records old_records new_records ms) m = none := by
  rw [merge_eq_filterMap]
  induction ms with
  | nil => rfl
  | cons m0 rest ih =>
    have hrest : m ∉ rest := fun hr => h (List.mem_cons_of_mem m0 hr)
    rw [List.filterMap_cons]
    cases hf : reconcile_entry old_records new_records m0 with
    | none => exact ih hrest
    | some r =>
      have hne : ¬ (m0 = m) := by
        intro he
        rw [he] at h
        exact h (List.mem_cons_self m rest)
      simp only [records_get, ih hrest]
      rw [reconcile_entry_major hf]
      rw [if_neg hne]

theorem records_get_merge_mem {old_records new_records : List PostgresqlRecord}
    {ms : List String} {m : String} (h : m ∈ ms) :
    records_get (merge_postgresql_records old_records new_records ms) m
      = reconcile_entry old_records new_records m := by
  rw [merge_eq_filterMap]
  induction ms with
  | nil => cases h
  | cons m0 rest ih =>
    rw [List.filterMap_cons]
    by_cases hmr : m ∈ rest
    · have ihr := ih hmr
      cases hf : reconcile_entry old_records new_records m0 with
      | none => exact ihr
      | some r =>
        simp only [records_get]
        rw [ihr]
        cases hfm : reconcile_entry old_records new_records m with
        | some y => rfl
        | none =>
          have hne : ¬ (m0 = m) := by
            intro he
            rw [he, hfm] at hf
            simp at hf
          rw [reconcile_entry_major hf]
          rw [if_neg hne]
    · have hm0 : m0 = m := by
        rcases List.mem_cons.mp h with h1 | h2
        · exact h1.symm
        · exact absurd h2 hmr
      subst hm0
      have hnone : records_get (rest.filterMap (reconcile_entry old_records new_records)) m0
          = none := by
        rw [← merge_eq_filterMap]
        exact records_get_merge_not_mem hmr
      cases hf : reconcile_entry old_records new_records m0 with
      | none => exact hnone
      | some r =>
        simp only [records_get, hnone]
        rw [reconcile_entry_major hf, if_pos rfl]

theorem merge_map_major (old_records new_records : List PostgresqlRecord) (ms : List String) :
    (merge_postgresql_records old_records new_records ms).map (fun r => r.major_version)
      = ms.filter (fun m =>
          (records_get old_records m).isSome || (records_get new_records m).isSome) := by
  induction ms with
  | nil => rfl
  | cons m rest ih =>
    rw [merge_eq_filterMap] at ih ⊢
    rw [List.filterMap_cons, List.filter_cons]
    cases hf : reconcile_entry old_records new_records m with
    | none =>
      have hcond : ((records_get old_records m).isSome
          || (records_get new_records m).isSome) = false := by
        rw [← reconcile_entry_isSome, hf]
        rfl
      rw [hcond]
      simpa using ih
    | some r =>
      have hcond : ((records_get old_records m).isSome
          || (records_get new_records m).isSome) = true := by
        rw [← reconcile_entry_isSome, hf]
        rfl
      rw [hcond]
      simpa [reconcile_entry_major hf] using ih

theorem mem_merge_exists {old_records new_records : List PostgresqlRecord} {ms : List String}
    {r : PostgresqlRecord} (h : r ∈ merge_postgresql_records old_records new_records ms) :
    ∃ m ∈ ms, reconcile_entry old_records new_records m = some r := by
  rw [merge_eq_filterMap] at h
  exact List.mem_filterMap.mp h

theorem takeWhile_append_all {p : Char → Bool} {v : List Char} (hv : ∀ c ∈ v, p c = true)
    {x : Char} (hx : p x = false) (r : List Char) :
    (v ++ x :: r).takeWhile p = v := by
  induction v with
  | nil => simp [List.takeWhile_cons, hx]
  | cons c cs ih =>
    rw [List.cons_append, List.takeWhile_cons, if_pos (hv c (List.mem_cons_self c cs))]
    rw [ih (fun a ha => hv a (List.mem_cons_of_mem c ha))]

theorem dropWhile_append_all {p : Char → Bool} {v : List Char} (hv : ∀ c ∈ v, p c = true)
    {x : Char} (hx : p x = false) (r : List Char) :
    (v ++ x :: r).dropWhile p = x :: r := by
  induction v with
  | nil => simp [List.dropWhile_cons, hx]
  | cons c cs ih =>
    rw [List.cons_append, List.dropWhile_cons, if_pos (hv c (List.mem_cons_self c cs))]
    exact ih (fun a ha => hv a (List.mem_cons_of_mem c ha))

theorem parse_tag_chars_def (cs : List Char) :
    parse_tag_chars cs =
      if cs.takeWhile (fun c => c ≠ '-') = [] then none
      else if (cs.dropWhile (fun c => c ≠ '-')).take 8 = "-debian-".toList then
        if ((cs.dropWhile (fun c => c ≠ '-')).drop 8).takeWhile (fun c => c ≠ '-') = [] then
          none
        else if (((cs.dropWhile (fun c => c ≠ '-')).drop 8).dropWhile
            (fun c => c ≠ '-')).head? = some '-' then
          some (cs.takeWhile (fun c => c ≠ '-'),
            ((cs.dropWhile (fun c => c ≠ '-')).drop 8).takeWhile (fun c => c ≠ '-'))
        else none
      else none := rfl

theorem parse_tag_chars_eq_some_iff {cs v d : List Char} :
    parse_tag_chars cs = some (v, d) ↔
      v ≠ [] ∧ d ≠ [] ∧ (∀ c ∈ v, c ≠ '-') ∧ (∀ c ∈ d, c ≠ '-') ∧
        ∃ s, cs = v ++ "-debian-".toList ++ d ++ '-' :: s := by
  have hdash : (fun c => (decide (c ≠ '-') : Bool)) '-' = false := by simp
  constructor
  · intro h
    rw [parse_tag_chars_def] at h
    by_cases h1 : cs.takeWhile (fun c => c ≠ '-') = []
    · rw [if_pos h1] at h
      exact Option.noConfusion h
    rw [if_neg h1] at h
    by_cases h2 : (cs.dropWhile (fun c => c ≠ '-')).take 8 = "-debian-".toList
    · rw [if_pos h2] at h
      by_cases h3 : ((cs.dropWhile (fun c => c ≠ '-')).drop 8).takeWhile (fun c => c ≠ '-')
          = []
      · rw [if_pos h3] at h
        exact Option.noConfusion h
      rw [if_neg h3] at h
      by_cases h4 : (((cs.dropWhile (fun c => c ≠ '-')).drop 8).dropWhile
          (fun c => c ≠ '-')).head? = some '-'
      · rw [if_pos h4] at h
        injection h with h
        injection h with hv0 hd0
        refine ⟨fun he => h1 (hv0.symm ▸ he), fun he => h3 (hd0.symm ▸ he), ?_, ?_, ?_⟩
        · intro a ha
          rw [← hv0] at ha
          exact of_decide_eq_true
            (List.mem_takeWhile_imp (p := fun c => (decide (c ≠ '-') : Bool)) ha)
        · intro a ha
          rw [← hd0] at ha
          exact of_decide_eq_true
            (List.mem_takeWhile_imp (p := fun c => (decide (c ≠ '-') : Bool)) ha)
        · rcases hr3 : ((cs.dropWhile (fun c => c ≠ '-')).drop 8).dropWhile
              (fun c => c ≠ '-') with _ | ⟨c, s⟩
          · rw [hr3] at h4
            exact Option.noConfusion h4
          rw [hr3] at h4
          simp only [List.head?_cons, Option.some.injEq] at h4
          refine ⟨s, ?_⟩
          have e1 : cs = cs.takeWhile (fun c => c ≠ '-') ++ cs.dropWhile (fun c => c ≠ '-') :=
            (List.takeWhile_append_dropWhile _ _).symm
          have e2 : cs.dropWhile (fun c => c ≠ '-')
              = "-debian-".toList ++ (cs.dropWhile (fun c => c ≠ '-')).drop 8 := by
            conv_lhs => rw [← List.take_append_drop 8 (cs.dropWhile (fun c => c ≠ '-'))]
            rw [h2]
          have e3 : (cs.dropWhile (fun c => c ≠ '-')).drop 8
              = ((cs.dropWhile (fun c => c ≠ '-')).drop 8).takeWhile (fun c => c ≠ '-')
                ++ ('-' :: s) := by
            conv_lhs =>
              rw [← List.takeWhile_append_dropWhile (fun c => (c ≠ '-' : Bool))
                ((cs.dropWhile (fun c => c ≠ '-')).drop 8)]
            rw [hr3, h4]
          conv_lhs => rw [e1, e2, e3]
          rw [hv0, hd0]
          simp [List.append_assoc]
      · rw [if_neg h4] at h
        exact Option.noConfusion h
    · rw [if_neg h2] at h
      exact Option.noConfusion h
  · rintro ⟨hv, hd, hvfree, hdfree, s, hcs⟩
    have hvp : ∀ c ∈ v, (fun c => (decide (c ≠ '-') : Bool)) c = true :=
      fun c hc => decide_eq_true (hvfree c hc)
    have hdp : ∀ c ∈ d, (fun c => (decide (c ≠ '-') : Bool)) c = true :=
      fun c hc => decide_eq_true (hdfree c hc)
    have hshape : cs = v ++ '-' :: ("debian-".toList ++ (d ++ '-' :: s)) := by
      rw [hcs]
      simp [List.append_assoc]
    have htake : cs.takeWhile (fun c => c ≠ '-') = v := by
      rw [hshape]
      exact takeWhile_append_all hvp hdash _
    have hdrop : cs.dropWhile (fun c => c ≠ '-')
        = "-debian-".toList ++ (d ++ '-' :: s) := by
      rw [hshape]
      rw [dropWhile_append_all hvp hdash _]
      rfl
    have hlen : ("-debian-".toList : List Char).length = 8 := rfl
    have htake8 : (cs.dropWhile (fun c => c ≠ '-')).take 8 = "-debian-".toList := by
      rw [hdrop]
      exact List.take_left' hlen
    have hdrop8 : (cs.dropWhile (fun c => c ≠ '-')).drop 8 = d ++ '-' :: s := by
      rw [hdrop]
      exact List.drop_left' hlen
    have htaked : ((cs.dropWhile (fun c => c ≠ '-')).drop 8).takeWhile (fun c => c ≠ '-')
        = d := by
      rw [hdrop8]
      exact takeWhile_append_all hdp hdash _
    have hdropd : ((cs.dropWhile (fun c => c ≠ '-')).drop 8).dropWhile (fun c => c ≠ '-')
        = '-' :: s := by
      rw [hdrop8]
      exact dropWhile_append_all hdp hdash _
    rw [parse_tag_chars_def, if_neg (fun he => hv (htake.symm.trans he)), if_pos htake8,
      if_neg (fun he => hd (htaked.symm.trans he)), hdropd]
    simp only [List.head?_cons]
    rw [if_pos trivial, htake, htaked]

theorem from_version_ok {t img m tag : String} {latest : Bool} {r : PostgresqlRecord}
    (h : PostgresqlRecord.from_version t img m tag latest = .ok r) :
    r.last_updated = t ∧ r.major_version = m ∧ r.upstream_tag = tag := by
  simp only [PostgresqlRecord.from_version] at h
  split at h
  · cases h
  · injection h with h
    subst h
    exact ⟨rfl, rfl, rfl⟩

theorem get_postgresql_records_ok {t img : String} {results : List UpstreamTag}
    {ms : List String} {recs : List PostgresqlRecord}
    (h : get_postgresql_records t img results ms = .ok recs) :
    recs.map (fun r => r.major_version) = ms ∧
      ∀ r ∈ recs, r.last_updated = t ∧
        ∃ ts, select_version_tag results r.major_version = some ts ∧
          r.upstream_tag = ts.name := by
  induction ms generalizing recs with
  | nil =>
    simp only [get_postgresql_records] at h
    injection h with h
    subst h
    refine ⟨rfl, ?_⟩
    intro r hr
    cases hr
  | cons m rest ih =>
    simp only [get_postgresql_records] at h
    split at h
    · cases h
    · rename_i vt hsel
      split at h
      · cases h
      · rename_i record hfv
        split at h
        · cases h
        · rename_i records hrec
          injection h with h
          subst h
          rcases from_version_ok hfv with ⟨hlu, hmv, hut⟩
          rcases ih hrec with ⟨hmap, hall⟩
          constructor
          · simp [hmv, hmap]
          · intro r hr
            rcases List.mem_cons.mp hr with rfl | hrr
            · exact ⟨hlu, vt, by rw [hmv]; exact hsel, hut⟩
            · exact hall r hrr


theorem from_version_time {t t2 img m tag : String} {latest : Bool} {r : PostgresqlRecord}
    (h : PostgresqlRecord.from_version t img m tag latest = .ok r) :
    PostgresqlRecord.from_version t2 img m tag latest
      = .ok { r with last_updated := t2 } := by
  simp only [PostgresqlRecord.from_version] at h
  split at h
  · cases h
  · rename_i pv dv hp
    injection h with h
    subst h
    simp only [PostgresqlRecord.from_version]
    rw [hp]

theorem get_postgresql_records_cons_none {t img m : String} {results : List UpstreamTag}
    {rest : List String} (hsel : select_version_tag results m = none) :
    get_postgresql_records t img results (m :: rest)
      = .error (.UpstreamVersionNotFoundError m) := by
  simp only [get_postgresql_records]
  rw [hsel]

theorem get_postgresql_records_cons_some {t img m : String} {results : List UpstreamTag}
    {rest : List String} {vt : UpstreamTag} {record : PostgresqlRecord}
    {records : List PostgresqlRecord}
    (hsel : select_version_tag results m = some vt)
    (hfv : PostgresqlRecord.from_version t img m vt.name rest.isEmpty = .ok record)
    (hrec : get_postgresql_records t img results rest = .ok records) :
    get_postgresql_records t img results (m :: rest) = .ok (record :: records) := by
  simp only [get_postgresql_records]
  rw [hsel]
  show (match PostgresqlRecord.from_version t img m vt.name rest.isEmpty with
    | .error e => (.error e : Except UpdaterError (List PostgresqlRecord))
    | .ok record =>
      match get_postgresql_records t img results rest with
      | .error e => .error e
      | .ok records => .ok (record :: records)) = .ok (record :: records)
  rw [hfv]
  show (match get_postgresql_records t img results rest with
    | .error e => (.error e : Except UpdaterError (List PostgresqlRecord))
    | .ok records => .ok (record :: records)) = .ok (record :: records)
  rw [hrec]

theorem get_postgresql_records_cons_from_version_err {t img m : String}
    {results : List UpstreamTag} {rest : List String} {vt : UpstreamTag} {e : UpdaterError}
    (hsel : select_version_tag results m = some vt)
    (hfv : PostgresqlRecord.from_version t img m vt.name rest.isEmpty = .error e) :
    get_postgresql_records t img results (m :: rest) = .error e := by
  simp only [get_postgresql_records]
  rw [hsel]
  show (match PostgresqlRecord.from_version t img m vt.name rest.isEmpty with
    | .error e => (.error e : Except UpdaterError (List PostgresqlRecord))
    | .ok record =>
      match get_postgresql_records t img results rest with
      | .error e => .error e
      | .ok records => .ok (record :: records)) = .error e
  rw [hfv]

theorem get_postgresql_records_cons_rest_err {t img m : String}
    {results : List UpstreamTag} {rest : List String} {vt : UpstreamTag}
    {record : PostgresqlRecord} {e : UpdaterError}
    (hsel : select_version_tag results m = some vt)
    (hfv : PostgresqlRecord.from_version t img m vt.name rest.isEmpty = .ok record)
    (hrec : get_postgresql_records t img results rest = .error e) :
    get_postgresql_records t img results (m :: rest) = .error e := by
  simp only [get_postgresql_records]
  rw [hsel]
  show (match PostgresqlRecord.from_version t img m vt.name rest.isEmpty with
    | .error e => (.error e : Except UpdaterError (List PostgresqlRecord))
    | .ok record =>
      match get_postgresql_records t img results rest with
      | .error e => .error e
      | .ok records => .ok (record :: records)) = .error e
  rw [hfv]
  show (match get_postgresql_records t img results rest with
    | .error e => (.error e : Except UpdaterError (List PostgresqlRecord))
    | .ok records => .ok (record :: records)) = .error e
  rw [hrec]

theorem get_postgresql_records_time {t t2 img : String} {results : List UpstreamTag}
    {ms : List String} {recs : List PostgresqlRecord}
    (h : get_postgresql_records t img results ms = .ok recs) :
    get_postgresql_records t2 img results ms
      = .ok (recs.map (fun r => { r with last_updated := t2 })) := by
  induction ms generalizing recs with
  | nil =>
    simp only [get_postgresql_records] at h
    injection h with h
    subst h
    rfl
  | cons m rest ih =>
    simp only [get_postgresql_records] at h
    split at h
    · cases h
    · rename_i vt hsel
      split at h
      · cases h
      · rename_i record hfv
        split at h
        · cases h
        · rename_i records hrec
          injection h with h
          subst h
          rw [get_postgresql_records_cons_some hsel (from_version_time hfv) (ih hrec)]
          rfl

theorem generate_manifest_ok {t img : String} {results : List UpstreamTag}
    {ms : List String} {C : Manifest}
    (h : generate_manifest t img results ms = .ok C) :
    ∃ recs, get_postgresql_records t img results ms = .ok recs ∧
      C = { wal2json := get_wal2json_record t, postgresql := recs } := by
  simp only [generate_manifest] at h
  split at h
  · cases h
  · rename_i recs hrec
    injection h with h
    subst h
    exact ⟨recs, hrec, rfl⟩

theorem update_manifest_ok {prev : Option Manifest} {t img : String}
    {results : List UpstreamTag} {ms : List String} {M : Manifest}
    (h : update_manifest prev t img results ms = .ok M) :
    ∃ C, generate_manifest t img results (sorted_strings ms) = .ok C ∧
      M = (match prev with
           | none => C
           | some p => merge_manifest p C (sorted_strings ms)) := by
  simp only [update_manifest] at h
  split at h
  · cases h
  · rename_i C hgen
    cases prev with
    | none =>
      injection h with h
      subst h
      exact ⟨C, hgen, rfl⟩
    | some p =>
      injection h with h
      subst h
      exact ⟨C, hgen, rfl⟩

theorem update_manifest_ok_wal {prev : Option Manifest} {t img : String}
    {results : List UpstreamTag} {ms : List String} {M : Manifest}
    (h : update_manifest prev t img results ms = .ok M) :
    M.wal2json.upstream_tag = "wal2json_2_5" := by
  rcases update_manifest_ok h with ⟨C, hgen, hM⟩
  rcases generate_manifest_ok hgen with ⟨recs, _, hC⟩
  have hCw : C.wal2json.upstream_tag = "wal2json_2_5" := by
    rw [hC]
    rfl
  cases prev with
  | none =>
    rw [show M = C from hM]
    exact hCw
  | some p =>
    rw [show M = merge_manifest p C (sorted_strings ms) from hM]
    by_cases hne : p.wal2json.upstream_tag ≠ C.wal2json.upstream_tag
    · show (if p.wal2json.upstream_tag ≠ C.wal2json.upstream_tag
          then C.wal2json else p.wal2json).upstream_tag = "wal2json_2_5"
      rw [if_pos hne]
      exact hCw
    · show (if p.wal2json.upstream_tag ≠ C.wal2json.upstream_tag
          then C.wal2json else p.wal2json).upstream_tag = "wal2json_2_5"
      rw [if_neg hne]
      exact (not_not.mp hne).trans hCw

theorem update_manifest_ok_entry {prev : Option Manifest} {t img : String}
    {results : List UpstreamTag} {ms : List String} {M : Manifest}
    (h : update_manifest prev t img results ms = .ok M) :
    ∀ m ∈ sorted_strings ms, ∃ p ts, records_get M.postgresql m = some p ∧
      select_version_tag results m = some ts ∧ p.upstream_tag = ts.name := by
  rcases update_manifest_ok h with ⟨C, hgen, hM⟩
  rcases generate_manifest_ok hgen with ⟨recs, hrec, hC⟩
  rcases get_postgresql_records_ok hrec with ⟨hmap, hall⟩
  intro m hm
  have hex : ∃ r ∈ recs, r.major_version = m := by
    have hmm : m ∈ recs.map (fun r => r.major_version) := by
      rw [hmap]
      exact hm
    rcases List.mem_map.mp hmm with ⟨r, hr, hrm⟩
    exact ⟨r, hr, hrm⟩
  have hCn : ∃ n, records_get recs m = some n ∧
      ∃ ts, select_version_tag results m = some ts ∧ n.upstream_tag = ts.name := by
    rcases hex with ⟨r, hr, hrm⟩
    have hs := records_get_isSome_of hr hrm
    cases hg : records_get recs m with
    | none =>
      rw [hg] at hs
      cases hs
    | some n =>
      rcases (hall n (records_get_mem hg)).2 with ⟨ts, hts, hname⟩
      rw [records_get_major hg] at hts
      exact ⟨n, rfl, ts, hts, hname⟩
  rcases hCn with ⟨n, hgn, ts, hts, hname⟩
  cases prev with
  | none =>
    refine ⟨n, ts, ?_, hts, hname⟩
    rw [show M = C from hM, hC]
    exact hgn
  | some pm =>
    have hget : records_get M.postgresql m = reconcile_entry pm.postgresql recs m := by
      rw [show M = merge_manifest pm C (sorted_strings ms) from hM, hC]
      exact records_get_merge_mem hm
    cases ho : records_get pm.postgresql m with
    | none =>
      refine ⟨n, ts, ?_, hts, hname⟩
      rw [hget]
      simp only [reconcile_entry]
      rw [ho, hgn]
    | some o =>
      by_cases htag : n.upstream_tag ≠ o.upstream_tag
      · refine ⟨n, ts, ?_, hts, hname⟩
        rw [hget]
        simp only [reconcile_entry]
        rw [ho, hgn]
        show some (if n.upstream_tag ≠ o.upstream_tag then n else o) = some n
        rw [if_pos htag]
      · refine ⟨o, ts, ?_, hts, ?_⟩
        · rw [hget]
          simp only [reconcile_entry]
          rw [ho, hgn]
          show some (if n.upstream_tag ≠ o.upstream_tag then n else o) = some o
          rw [if_neg htag]
        · exact (not_not.mp htag).symm.trans hname

/-- Example upstream tag data for the concrete witnesses: one `15.x` tag and
two `14.x` tags whose `last_updated` order disagrees with their
version-string order. -/
def ex_results : List UpstreamTag :=
  [⟨"15.3-debian-12-r4", "2024-06-01"⟩,
   ⟨"14.10-debian-12-r0", "2024-01-01"⟩,
   ⟨"14.2-debian-12-r1", "2024-05-01"⟩]

/-- The manifest produced by a first run over `ex_results` at time `"T0"`
for majors `15` and `14` (checked by `rfl` in the witnesses that use it). -/
def ex_manifest : Manifest :=
  { wal2json := ⟨"T0", "2.5", "wal2json_2_5"⟩
  , postgresql :=
      [ ⟨"T0", "14.2", "14", "14.2-debian-12-r1",
          ["acme/img:14.2-debian-12-r1", "acme/img:14-debian-12", "acme/img:14.2",
           "acme/img:14"]⟩
      , ⟨"T0", "15.3", "15", "15.3-debian-12-r4",
          ["acme/img:15.3-debian-12-r4", "acme/img:15-debian-12", "acme/img:15.3",
           "acme/img:15", "acme/img:latest"]⟩ ] }

/-- C5: when the previous manifest is absent (`manifest is None`, first
run), `update_manifest` returns the freshly generated candidate manifest
verbatim, object for object, with no field of any entry modified. -/
theorem claim_C5_first_run (update_time image_name : String) (results : List UpstreamTag)
    (postgresql_major_versions : List String) (C : Manifest)
    (hgen : generate_manifest update_time image_name results
      (sorted_strings postgresql_major_versions) = .ok C) :
    update_manifest none update_time image_name results postgresql_major_versions
      = .ok C := by
  simp only [update_manifest]
  rw [hgen]

/-- Witness for C5: a concrete first run returns the candidate manifest. -/
theorem claim_C5_witness :
    update_manifest none "T1" "acme/img" ex_results ["15"]
      = .ok { wal2json := ⟨"T1", "2.5", "wal2json_2_5"⟩
            , postgresql := [⟨"T1", "15.3", "15", "15.3-debian-12-r4",
                ["acme/img:15.3-debian-12-r4", "acme/img:15-debian-12", "acme/img:15.3",
                 "acme/img:15", "acme/img:latest"]⟩] } :=
  claim_C5_first_run "T1" "acme/img" ex_results ["15"] _ rfl

/-- C1: a requested major version with no entry in the previous manifest's
engine list and no entry in the candidate's engine list yields no entry in
the merged engine list: it is silently dropped (the merge is total, so no
error is raised, and no placeholder is created). -/
theorem claim_C1_drop_on_absence (previous candidate : Manifest) (majors : List String)
    (m : String) (hm : m ∈ majors)
    (hprev : ∀ r ∈ previous.postgresql, r.major_version ≠ m)
    (hcand : ∀ r ∈ candidate.postgresql, r.major_version ≠ m) :
    ∀ r ∈ (merge_manifest previous candidate majors).postgresql, r.major_version ≠ m := by
  intro r hr
  rcases mem_merge_exists hr with ⟨m2, _, hrec⟩
  have hrm : r.major_version = m2 := reconcile_entry_major hrec
  intro he
  rw [he] at hrm
  rw [← hrm] at hrec
  simp only [reconcile_entry] at hrec
  rw [records_get_eq_none_of hprev, records_get_eq_none_of hcand] at hrec
  cases hrec

/-- Witness for C1: major `16` is absent from both sides and from the
merged output. -/
theorem claim_C1_witness :
    ((merge_manifest ex_manifest
        { wal2json := ⟨"T1", "2.5", "wal2json_2_5"⟩, postgresql := [] }
        ["15", "16"]).postgresql.all (fun r => r.major_version ≠ "16")) = true := by
  have h := claim_C1_drop_on_absence ex_manifest
    { wal2json := ⟨"T1", "2.5", "wal2json_2_5"⟩, postgresql := [] }
    ["15", "16"] "16" (by decide) (by decide) (by decide)
  exact List.all_eq_true.mpr fun r hr => decide_eq_true (h r hr)

/-- C10: the candidate wal2json record is a constant independent of any
fetched upstream data (version `"2.5"`, upstream tag `"wal2json_2_5"`), so
whenever a previous manifest's extension upstream tag is `"wal2json_2_5"`
the merged manifest keeps the previous extension record unchanged. -/
theorem claim_C10_constant_extension :
    (∀ t : String, get_wal2json_record t
        = { last_updated := t, version := "2.5", upstream_tag := "wal2json_2_5" }) ∧
    ∀ (prev : Manifest) (t img : String) (results : List UpstreamTag)
      (majors : List String) (M : Manifest),
      prev.wal2json.upstream_tag = "wal2json_2_5" →
      update_manifest (some prev) t img results majors = .ok M →
      M.wal2json = prev.wal2json := by
  constructor
  · intro t
    rfl
  · intro prev t img results majors M hw h
    rcases update_manifest_ok h with ⟨C, hgen, hM⟩
    rcases generate_manifest_ok hgen with ⟨recs, _, hC⟩
    have hct : C.wal2json.upstream_tag = "wal2json_2_5" := by
      rw [hC]
      rfl
    rw [show M = merge_manifest prev C (sorted_strings majors) from hM]
    show (if prev.wal2json.upstream_tag ≠ C.wal2json.upstream_tag
        then C.wal2json else prev.wal2json) = prev.wal2json
    rw [if_neg (fun hne => hne (hw.trans hct.symm))]

/-- Witness for C10: a previous manifest with extension tag
`"wal2json_2_5"` keeps its extension record after a later run. -/
theorem claim_C10_witness :
    ({ wal2json := ⟨"Told", "2.5", "wal2json_2_5"⟩
     , postgresql := [⟨"T1", "15.3", "15", "15.3-debian-12-r4",
         ["acme/img:15.3-debian-12-r4", "acme/img:15-debian-12", "acme/img:15.3",
          "acme/img:15", "acme/img:latest"]⟩] } : Manifest).wal2json
      = ({ wal2json := ⟨"Told", "2.5", "wal2json_2_5"⟩, postgresql := [] } : Manifest).wal2json :=
  claim_C10_constant_extension.2
    { wal2json := ⟨"Told", "2.5", "wal2json_2_5"⟩, postgresql := [] }
    "T1" "acme/img" ex_results ["15"] _ rfl rfl

/-- C8: when no fetched tag name starts with `"<major>."`, tag selection
comes up empty and the run aborts with `UpstreamVersionNotFoundError`: for
the failing major alone the error is exactly
`UpstreamVersionNotFoundError major`, and any requested-major list
containing the failing major makes `get_postgresql_records` fail. -/
theorem claim_C8_selection_failure (t img m : String) (results : List UpstreamTag)
    (hnone : ∀ u ∈ results, py_startswith u.name (m ++ ".") = false) :
    select_version_tag results m = none ∧
    get_postgresql_records t img results [m]
      = .error (.UpstreamVersionNotFoundError m) ∧
    ∀ ms : List String, m ∈ ms →
      ∃ e, get_postgresql_records t img results ms = .error e := by
  have hsel : select_version_tag results m = none := by
    unfold select_version_tag
    have hf : results.filter (fun u => py_startswith u.name (m ++ ".")) = [] := by
      rw [List.filter_eq_nil_iff]
      intro u hu
      rw [hnone u hu]
      exact Bool.false_ne_true
    rw [hf]
    rfl
  refine ⟨hsel, get_postgresql_records_cons_none hsel, ?_⟩
  intro ms hm
  induction ms with
  | nil => cases hm
  | cons m0 rest ih =>
    rcases List.mem_cons.mp hm with rfl | hmr
    · exact ⟨_, get_postgresql_records_cons_none hsel⟩
    · cases hs0 : select_version_tag results m0 with
      | none => exact ⟨_, get_postgresql_records_cons_none hs0⟩
      | some vt =>
        cases hf0 : PostgresqlRecord.from_version t img m0 vt.name rest.isEmpty with
        | error e => exact ⟨e, get_postgresql_records_cons_from_version_err hs0 hf0⟩
        | ok record =>
          rcases ih hmr with ⟨e, he⟩
          exact ⟨e, get_postgresql_records_cons_rest_err hs0 hf0 he⟩

/-- Witness for C8: requesting major `15` against data holding only a
`13.x` tag fails with `UpstreamVersionNotFoundError "15"`. -/
theorem claim_C8_witness :
    get_postgresql_records "T0" "acme/img" [⟨"13.1-debian-12-r0", "2024-01-01"⟩] ["15"]
      = .error (.UpstreamVersionNotFoundError "15") :=
  (claim_C8_selection_failure "T0" "acme/img" "15" [⟨"13.1-debian-12-r0", "2024-01-01"⟩]
    (by decide)).2.1

/-- C7: among the fetched tags whose name starts with `"<major>."`, the
selected tag is the one with the greatest `last_updated` timestamp as
reported by the source, independent of any version-string ordering. -/
theorem claim_C7_select_greatest (results : List UpstreamTag) (major : String)
    (t : UpstreamTag) (ht : t ∈ results)
    (hpre : py_startswith t.name (major ++ ".") = true)
    (hmax : ∀ u ∈ results, py_startswith u.name (major ++ ".") = true → u ≠ t →
      u.last_updated < t.last_updated) :
    select_version_tag results major = some t :=
  select_version_tag_unique_max ht hpre hmax

/-- Witness for C7: of two `14.x` tags, `14.2` with the later
`last_updated` beats `14.10` with the earlier one, although `"14.10"` is
the higher version. -/
theorem claim_C7_witness :
    select_version_tag
      [⟨"14.10-debian-12-r0", "2024-01-01"⟩, ⟨"14.2-debian-12-r1", "2024-05-01"⟩] "14"
      = some ⟨"14.2-debian-12-r1", "2024-05-01"⟩ := by
  apply claim_C7_select_greatest
  · decide
  · decide
  · intro u hu hupre hune
    rcases List.mem_cons.mp hu with rfl | hu2
    · exact String.lt_iff_toList_lt.mpr (by decide)
    rcases List.mem_cons.mp hu2 with rfl | hu3
    · exact absurd rfl hune
    · cases hu3

/-- C9: `parse_tag` fails (with `MalformedTagError` and with no other
error) on exactly the strings not of the shape
`<version>-debian-<debian_version>-<suffix>`, and on every string of that
shape it returns the `(version, debian_version)` pair, with no further
validation of the components. -/
theorem claim_C9_parse_tag_contract (tag : String) :
    ((∃ e, PostgresqlRecord.parse_tag tag = .error e) ↔ ¬ spec_tag_shape tag) ∧
    (∀ e, PostgresqlRecord.parse_tag tag = .error e → e = .MalformedTagError tag) ∧
    (∀ v d s : List Char, v ≠ [] → d ≠ [] → (∀ c ∈ v, c ≠ '-') → (∀ c ∈ d, c ≠ '-') →
      tag.toList = v ++ "-debian-".toList ++ d ++ '-' :: s →
      PostgresqlRecord.parse_tag tag = .ok (⟨v⟩, ⟨d⟩)) := by
  have hok : ∀ v d : List Char, parse_tag_chars tag.toList = some (v, d) →
      PostgresqlRecord.parse_tag tag = .ok (⟨v⟩, ⟨d⟩) := by
    intro v d h
    simp only [PostgresqlRecord.parse_tag]
    rw [h]
  refine ⟨⟨?_, ?_⟩, ?_, ?_⟩
  · rintro ⟨e, he⟩ hshape
    rcases hshape with ⟨v, d, s, hv, hd, hvf, hdf, hcs⟩
    rw [hok v d (parse_tag_chars_eq_some_iff.mpr ⟨hv, hd, hvf, hdf, s, hcs⟩)] at he
    cases he
  · intro hns
    cases hpc : parse_tag_chars tag.toList with
    | some p =>
      rcases p with ⟨v, d⟩
      rcases parse_tag_chars_eq_some_iff.mp hpc with ⟨hv, hd, hvf, hdf, s, hcs⟩
      exact absurd ⟨v, d, s, hv, hd, hvf, hdf, hcs⟩ hns
    | none =>
      refine ⟨.MalformedTagError tag, ?_⟩
      simp only [PostgresqlRecord.parse_tag]
      rw [hpc]
  · intro e he
    simp only [PostgresqlRecord.parse_tag] at he
    split at he
    · cases he
    · injection he with he1
      exact he1.symm
  · intro v d s hv hd hvf hdf hcs
    exact hok v d (parse_tag_chars_eq_some_iff.mpr ⟨hv, hd, hvf, hdf, s, hcs⟩)

/-- Witness for C9: a well-shaped tag parses to its two components. -/
theorem claim_C9_witness :
    PostgresqlRecord.parse_tag "15.3-debian-12-r4" = .ok ("15.3", "12") :=
  (claim_C9_parse_tag_contract "15.3-debian-12-r4").2.2
    ['1', '5', '.', '3'] ['1', '2'] ['r', '4'] (by decide) (by decide) (by decide)
    (by decide) (by decide)

theorem from_version_ok_spec {t img m tag : String} {latest : Bool} {r : PostgresqlRecord}
    (h : PostgresqlRecord.from_version t img m tag latest = .ok r) :
    ∃ pv dv : String, PostgresqlRecord.parse_tag tag = .ok (pv, dv) ∧
      r = { last_updated := t, version := pv, major_version := m, upstream_tag := tag
          , tags := [img ++ ":" ++ tag, img ++ ":" ++ m ++ "-debian-" ++ dv,
                     img ++ ":" ++ pv, img ++ ":" ++ m]
              ++ (if latest then [img ++ ":latest"] else []) } := by
  simp only [PostgresqlRecord.from_version] at h
  split at h
  · cases h
  · rename_i pv dv hp
    injection h with h
    exact ⟨pv, dv, hp, h.symm⟩

theorem latest_cond_eq {α : Type} (A B : α) (m : String) (rest : List String)
    (hnd : (m :: rest).Nodup) :
    (if rest.isEmpty then A else B)
      = (if (m :: rest).getLast? = some m then A else B) := by
  cases rest with
  | nil => simp
  | cons m1 r1 =>
    have hm_not : m ∉ m1 :: r1 := (List.nodup_cons.mp hnd).1
    have hcond : ¬ ((m1 :: r1 : List String).getLast? = some m) :=
      fun hy => hm_not (mem_of_getLast_some hy)
    rw [List.getLast?_cons_cons, if_neg hcond]
    rfl

theorem get_records_alias_aux {t img : String} {results : List UpstreamTag}
    {ms : List String} {recs : List PostgresqlRecord}
    (hnd : ms.Nodup) (h : get_postgresql_records t img results ms = .ok recs) :
    ∀ r ∈ recs, ∀ v d : String,
      PostgresqlRecord.parse_tag r.upstream_tag = .ok (v, d) →
      r.tags = [img ++ ":" ++ r.upstream_tag,
                img ++ ":" ++ r.major_version ++ "-debian-" ++ d,
                img ++ ":" ++ v,
                img ++ ":" ++ r.major_version]
        ++ (if ms.getLast? = some r.major_version then [img ++ ":latest"] else []) := by
  induction ms generalizing recs with
  | nil =>
    simp only [get_postgresql_records] at h
    injection h with h
    subst h
    intro r hr
    cases hr
  | cons m rest ih =>
    simp only [get_postgresql_records] at h
    split at h
    · cases h
    · rename_i vt hsel
      split at h
      · cases h
      · rename_i record hfv
        split at h
        · cases h
        · rename_i records hrec
          injection h with h
          subst h
          have hmap := (get_postgresql_records_ok hrec).1
          intro r hr v d hparse
          rcases List.mem_cons.mp hr with rfl | hrr
          · rcases from_version_ok_spec hfv with ⟨pv, dv, hp, hreq⟩
            subst hreq
            have hparse2 : PostgresqlRecord.parse_tag vt.name = .ok (v, d) := hparse
            have heq := hp.symm.trans hparse2
            injection heq with heq
            have hpv : pv = v := congrArg Prod.fst heq
            have hdv : dv = d := congrArg Prod.snd heq
            show [img ++ ":" ++ vt.name, img ++ ":" ++ m ++ "-debian-" ++ dv,
                  img ++ ":" ++ pv, img ++ ":" ++ m]
                ++ (if rest.isEmpty then [img ++ ":latest"] else [])
              = [img ++ ":" ++ vt.name, img ++ ":" ++ m ++ "-debian-" ++ d,
                 img ++ ":" ++ v, img ++ ":" ++ m]
                ++ (if (m :: rest).getLast? = some m then [img ++ ":latest"] else [])
            rw [hpv, hdv]
            exact congrArg _ (latest_cond_eq _ _ m rest hnd)
          · have hmm : r.major_version ∈ rest := by
              rw [← hmap]
              exact List.mem_map_of_mem _ hrr
            rcases rest with _ | ⟨m1, r1⟩
            · cases hmm
            · rw [List.getLast?_cons_cons]
              exact ih (List.nodup_cons.mp hnd).2 hrec r hrr v d hparse

/-- C6: every engine record built from a selected upstream tag of shape
`<version>-debian-<debian_version>-<suffix>` carries exactly the alias list
`<image>:<upstream_tag>`, `<image>:<major>-debian-<debian_version>`,
`<image>:<version>`, `<image>:<major>`, in this order, followed by
`<image>:latest` exactly when the record's major version is the last
element of the ascending-sorted requested major-version list. -/
theorem claim_C6_alias_order (t img : String) (results : List UpstreamTag)
    (majors : List String) (recs : List PostgresqlRecord)
    (hnd : (sorted_strings majors).Nodup)
    (h : get_postgresql_records t img results (sorted_strings majors) = .ok recs) :
    ∀ r ∈ recs, ∀ v d : String,
      PostgresqlRecord.parse_tag r.upstream_tag = .ok (v, d) →
      r.tags = [img ++ ":" ++ r.upstream_tag,
                img ++ ":" ++ r.major_version ++ "-debian-" ++ d,
                img ++ ":" ++ v,
                img ++ ":" ++ r.major_version]
        ++ (if (sorted_strings majors).getLast? = some r.major_version
            then [img ++ ":latest"] else []) :=
  get_records_alias_aux hnd h

/-- Witness for C6: image `acme/img`, upstream tag `15.3-debian-12-r4`,
sole requested major `15` — the alias list is exactly the five tags of the
specification, in order. -/
theorem claim_C6_witness :
    (⟨"T0", "15.3", "15", "15.3-debian-12-r4",
      ["acme/img:15.3-debian-12-r4", "acme/img:15-debian-12", "acme/img:15.3",
       "acme/img:15", "acme/img:latest"]⟩ : PostgresqlRecord).tags
      = ["acme/img:15.3-debian-12-r4", "acme/img:15-debian-12", "acme/img:15.3",
         "acme/img:15", "acme/img:latest"] := by
  have h := claim_C6_alias_order "T0" "acme/img" ex_results ["15"]
    [⟨"T0", "15.3", "15", "15.3-debian-12-r4",
      ["acme/img:15.3-debian-12-r4", "acme/img:15-debian-12", "acme/img:15.3",
       "acme/img:15", "acme/img:latest"]⟩]
    (by decide) rfl
    ⟨"T0", "15.3", "15", "15.3-debian-12-r4",
      ["acme/img:15.3-debian-12-r4", "acme/img:15-debian-12", "acme/img:15.3",
       "acme/img:15", "acme/img:latest"]⟩
    (by decide) "15.3" "12" rfl
  rw [h]
  decide

/-- C2: per entry (extension singleton; engine keyed by `major_version`),
the merge advances `last_updated` exactly when `upstream_tag` changed: the
extension record is replaced by the candidate's when the upstream tags
differ and kept untouched when they agree, and an engine entry present
before and after the merge has a changed `last_updated` if and only if its
`upstream_tag` changed, provided the candidate entry's `last_updated`
(the fresh run timestamp) differs from the previous one. -/
theorem claim_C2_change_iff (previous candidate : Manifest) (majors : List String) :
    ((previous.wal2json.upstream_tag ≠ candidate.wal2json.upstream_tag →
        (merge_manifest previous candidate majors).wal2json = candidate.wal2json) ∧
      (previous.wal2json.upstream_tag = candidate.wal2json.upstream_tag →
        (merge_manifest previous candidate majors).wal2json = previous.wal2json)) ∧
    (candidate.wal2json.last_updated ≠ previous.wal2json.last_updated →
      ((merge_manifest previous candidate majors).wal2json.last_updated
          ≠ previous.wal2json.last_updated ↔
        (merge_manifest previous candidate majors).wal2json.upstream_tag
          ≠ previous.wal2json.upstream_tag)) ∧
    ∀ m p r, records_get previous.postgresql m = some p →
      records_get (merge_manifest previous candidate majors).postgresql m = some r →
      (∀ n, records_get candidate.postgresql m = some n →
        n.last_updated ≠ p.last_updated) →
      (r.last_updated ≠ p.last_updated ↔ r.upstream_tag ≠ p.upstream_tag) := by
  have hwal : (merge_manifest previous candidate majors).wal2json
      = (if previous.wal2json.upstream_tag ≠ candidate.wal2json.upstream_tag
         then candidate.wal2json else previous.wal2json) := rfl
  refine ⟨⟨?_, ?_⟩, ?_, ?_⟩
  · intro hne
    rw [hwal, if_pos hne]
  · intro heq
    rw [hwal, if_neg (fun hne => hne heq)]
  · intro hfresh
    by_cases hne : previous.wal2json.upstream_tag ≠ candidate.wal2json.upstream_tag
    · rw [hwal, if_pos hne]
      exact iff_of_true hfresh (fun he => hne he.symm)
    · rw [hwal, if_neg hne]
      exact iff_of_false (fun hne2 => hne2 rfl) (fun hne2 => hne2 rfl)
  · intro m p r hp hr hfresh
    by_cases hm : m ∈ majors
    · have hget : records_get (merge_manifest previous candidate majors).postgresql m
          = reconcile_entry previous.postgresql candidate.postgresql m :=
        records_get_merge_mem hm
      rw [hget] at hr
      simp only [reconcile_entry] at hr
      rw [hp] at hr
      cases hn : records_get candidate.postgresql m with
      | none =>
        rw [hn] at hr
        have hr2 : some p = some r := hr
        injection hr2 with hr2
        subst hr2
        exact iff_of_false (fun h2 => h2 rfl) (fun h2 => h2 rfl)
      | some n =>
        rw [hn] at hr
        have hr2 : some (if n.upstream_tag ≠ p.upstream_tag then n else p) = some r := hr
        injection hr2 with hr2
        by_cases htag : n.upstream_tag ≠ p.upstream_tag
        · rw [if_pos htag] at hr2
          subst hr2
          exact iff_of_true (hfresh n hn) htag
        · rw [if_neg htag] at hr2
          subst hr2
          exact iff_of_false (fun h2 => h2 rfl) (fun h2 => h2 rfl)
    · have hr2 : records_get (merge_postgresql_records previous.postgresql
          candidate.postgresql majors) m = some r := hr
      rw [records_get_merge_not_mem hm] at hr2
      cases hr2

/-- Witness for C2: with differing extension upstream tags the merged
manifest takes the candidate's extension record whole. -/
theorem claim_C2_witness :
    (merge_manifest
        { wal2json := ⟨"T0", "2.4", "wal2json_2_4"⟩, postgresql := [] }
        { wal2json := ⟨"T1", "2.5", "wal2json_2_5"⟩, postgresql := [] }
        ["15"]).wal2json
      = ({ wal2json := ⟨"T1", "2.5", "wal2json_2_5"⟩, postgresql := [] } : Manifest).wal2json :=
  (claim_C2_change_iff
    { wal2json := ⟨"T0", "2.4", "wal2json_2_4"⟩, postgresql := [] }
    { wal2json := ⟨"T1", "2.5", "wal2json_2_5"⟩, postgresql := [] }
    ["15"]).1.1 (by decide)

/-- C3: the merged engine list consists exactly of the reconciled entries
for the requested majors (minus those dropped because neither side has an
entry), iterated in ascending sorted order of the requested list — so its
majors are the sorted requested majors filtered to those with an entry on
at least one side, the list is ascending in `major_version`, and a
previously tracked major that is no longer requested is absent from the
output. -/
theorem claim_C3_engine_exact (previous candidate : Manifest) (majors : List String) :
    ((merge_manifest previous candidate (sorted_strings majors)).postgresql.map
        (fun r => r.major_version)
      = (sorted_strings majors).filter (fun m =>
          (records_get previous.postgresql m).isSome
            || (records_get candidate.postgresql m).isSome)) ∧
    List.Sorted (· ≤ ·)
      ((merge_manifest previous candidate (sorted_strings majors)).postgresql.map
        (fun r => r.major_version)) ∧
    (∀ m ∈ sorted_strings majors,
      records_get (merge_manifest previous candidate (sorted_strings majors)).postgresql m
        = reconcile_entry previous.postgresql candidate.postgresql m) ∧
    ∀ p ∈ previous.postgresql, p.major_version ∉ majors →
      ∀ r ∈ (merge_manifest previous candidate (sorted_strings majors)).postgresql,
        r.major_version ≠ p.major_version := by
  have hsorted : List.Pairwise (fun a b : String => a ≤ b) (sorted_strings majors) :=
    py_sorted_pairwise (fun s => s) majors
  refine ⟨merge_map_major previous.postgresql candidate.postgresql (sorted_strings majors),
    ?_, ?_, ?_⟩
  · show List.Sorted (· ≤ ·)
      ((merge_postgresql_records previous.postgresql candidate.postgresql
        (sorted_strings majors)).map (fun r => r.major_version))
    rw [merge_map_major]
    exact List.Pairwise.filter _ hsorted
  · intro m hm
    exact records_get_merge_mem hm
  · intro p _ hpnot r hr he
    rcases mem_merge_exists hr with ⟨m2, hm2, hrec⟩
    have hrm : r.major_version = m2 := reconcile_entry_major hrec
    apply hpnot
    rw [← he, hrm]
    exact (py_sorted_perm (fun s => s) majors).mem_iff.mp hm2

/-- Witness for C3: concrete major lists — requested `["15", "13"]` against
a previous manifest tracking `14` and `15`; the output majors are exactly
`["15"]` (13 dropped as absent on both sides, 14 dropped as unrequested). -/
theorem claim_C3_witness :
    ((merge_manifest ex_manifest
        { wal2json := ⟨"T1", "2.5", "wal2json_2_5"⟩, postgresql := [] }
        (sorted_strings ["15", "13"])).postgresql.map (fun r => r.major_version)
      = (sorted_strings ["15", "13"]).filter (fun m =>
          (records_get ex_manifest.postgresql m).isSome
            || (records_get
                ({ wal2json := ⟨"T1", "2.5", "wal2json_2_5"⟩, postgresql := [] }
                  : Manifest).postgresql m).isSome)) :=
  (claim_C3_engine_exact ex_manifest
    { wal2json := ⟨"T1", "2.5", "wal2json_2_5"⟩, postgresql := [] } ["15", "13"]).1

/-- C4: idempotence — if a manifest `M` was produced by a run over some
upstream data, then a further merge of `M` with a candidate generated from
the same upstream data (same image name and requested majors, any run
timestamp) keeps the extension record and returns only engine records that
are literally entries of `M`, so every entry's `last_updated` is unchanged
and no entry is reported as changed. -/
theorem claim_C4_idempotence (prev0 : Option Manifest) (t0 t1 img : String)
    (results : List UpstreamTag) (majors : List String) (M M2 : Manifest)
    (h1 : update_manifest prev0 t0 img results majors = .ok M)
    (h2 : update_manifest (some M) t1 img results majors = .ok M2) :
    M2.wal2json = M.wal2json ∧ ∀ r ∈ M2.postgresql, r ∈ M.postgresql := by
  rcases update_manifest_ok h2 with ⟨C, hgen, hM2⟩
  rcases generate_manifest_ok hgen with ⟨recs, hrec, hC⟩
  rcases get_postgresql_records_ok hrec with ⟨hmap, hall⟩
  have hMw : M.wal2json.upstream_tag = "wal2json_2_5" := update_manifest_ok_wal h1
  have hCw : C.wal2json.upstream_tag = "wal2json_2_5" := by
    rw [hC]
    rfl
  have hM2eq : M2 = merge_manifest M C (sorted_strings majors) := hM2
  constructor
  · rw [hM2eq]
    show (if M.wal2json.upstream_tag ≠ C.wal2json.upstream_tag
        then C.wal2json else M.wal2json) = M.wal2json
    rw [if_neg (fun hne => hne (hMw.trans hCw.symm))]
  · intro r hr
    rw [hM2eq] at hr
    rcases mem_merge_exists hr with ⟨m, hm, hrec2⟩
    rcases update_manifest_ok_entry h1 m hm with ⟨p, ts, hMp, hsel, hptag⟩
    have hCn : ∃ n, records_get C.postgresql m = some n ∧ n.upstream_tag = ts.name := by
      rw [hC]
      have hex : ∃ rr ∈ recs, rr.major_version = m := by
        have hmm : m ∈ recs.map (fun rr => rr.major_version) := by
          rw [hmap]
          exact hm
        rcases List.mem_map.mp hmm with ⟨rr, hrr, hrm⟩
        exact ⟨rr, hrr, hrm⟩
      rcases hex with ⟨rr, hrr, hrm⟩
      have hs := records_get_isSome_of hrr hrm
      cases hg : records_get recs m with
      | none =>
        rw [hg] at hs
        cases hs
      | some n =>
        rcases (hall n (records_get_mem hg)).2 with ⟨ts2, hts2, hname2⟩
        rw [records_get_major hg] at hts2
        injection hsel.symm.trans hts2 with hh
        exact ⟨n, rfl, hname2.trans (congrArg UpstreamTag.name hh.symm)⟩
    rcases hCn with ⟨n, hgn, hn_tag⟩
    simp only [reconcile_entry] at hrec2
    rw [hMp, hgn] at hrec2
    have hrec3 : some (if n.upstream_tag ≠ p.upstream_tag then n else p) = some r := hrec2
    rw [if_neg (fun hne => hne (hn_tag.trans hptag.symm))] at hrec3
    injection hrec3 with hrec3
    rw [← hrec3]
    exact records_get_mem hMp

/-- Witness for C4: a second run at `"T1"` over the same upstream data as
the `"T0"` run that produced `ex_manifest` keeps the extension record. -/
theorem claim_C4_witness :
    ex_manifest.wal2json = ex_manifest.wal2json ∧
    ∀ r ∈ ex_manifest.postgresql, r ∈ ex_manifest.postgresql :=
  claim_C4_idempotence none "T0" "T1" "acme/img" ex_results ["15", "14"]
    ex_manifest ex_manifest rfl rfl
